import Mathlib

/-!
Verification of the migration-path builder
(`data/data_support_scripts/build_migration_paths.py`).

The script aggregates a heatmap into a density map keyed by `(lon, lat)`
cells, normalizes it, splits it into at most two longitude clusters,
finds the latitude extremes of each cluster, builds a waypoint path and
smooths it, then writes a JSON record per cluster.

Coordinates and densities are embedded as rationals.  A Python dict is
embedded as an association list in insertion order, which is the order
Python iterates in.  A Python function that can raise is embedded with
`Option` or `Except`: `none` / `.error` means the call raises.
-/

namespace BirdPaths

/-- A `(lon, lat)` cell key, as the script builds with `key = (lon, lat)`. -/
abbrev MigPoint := ℚ × ℚ

/-- One entry of the density dict: a cell key with its density. -/
abbrev Entry := MigPoint × ℚ

/-- The density dict `{(lon, lat): density}`, in insertion order. -/
abbrev DensityMap := List Entry

/-- One step of `density_map[key] = density_map.get(key, 0) + density`:
an existing key keeps its position with the density added, a new key is
appended at the end, as Python dict insertion does. -/
def updateDensity : DensityMap → MigPoint → ℚ → DensityMap
  | [], key, density => [(key, density)]
  | e :: es, key, density =>
    if e.1 = key then (e.1, e.2 + density) :: es
    else e :: updateDensity es key density

/-- Embedding of `aggregate_density_over_time`.  A frame is its list of
cells, each cell a `(lon, lat, density)` triple. -/
def aggregate_density_over_time (frames : List (List (ℚ × ℚ × ℚ))) : DensityMap :=
  frames.foldl
    (fun density_map frame =>
      frame.foldl (fun dm cell => updateDensity dm (cell.1, cell.2.1) cell.2.2) density_map)
    []

/-- Embedding of `normalize_densities`.  The guard on the empty map and
the guard on a zero maximum mirror the two early returns; otherwise every
value is divided by the maximum value.  `max(density_map.values())` is the
fold of `max` over the values, seeded with the first value. -/
def normalize_densities (density_map : DensityMap) : DensityMap :=
  match density_map with
  | [] => []
  | e :: es =>
    let max_density := (es.map (fun x => x.2)).foldl max e.2
    if max_density = 0 then (e :: es).map (fun p => (p.1, 0))
    else (e :: es).map (fun p => (p.1, p.2 / max_density))

/-- Embedding of `filter_geographic_regions`: drop every cell that falls
inside one of the excluded `((min_lon, max_lon), (min_lat, max_lat))`
boxes. -/
def filter_geographic_regions (density_map : DensityMap)
    (exclude_regions : List ((ℚ × ℚ) × (ℚ × ℚ))) : DensityMap :=
  if exclude_regions = [] then density_map
  else
    density_map.filter (fun e =>
      !(exclude_regions.any (fun r =>
        decide (r.1.1 ≤ e.1.1) && decide (e.1.1 ≤ r.1.2) &&
        decide (r.2.1 ≤ e.1.2) && decide (e.1.2 ≤ r.2.2))))

/-- The western-branch guard of `cluster_by_longitude`:
`americas_south_limit is None or lat >= americas_south_limit`. -/
def westKeep (americas_south_limit : Option ℚ) (lat : ℚ) : Bool :=
  match americas_south_limit with
  | none => true
  | some lim => decide (lim ≤ lat)

/-- The eastern-branch guard of `cluster_by_longitude`: the `europe_only`
bounds, else the `africa_only_south` bounds, else no further condition. -/
def eastKeep (europe_only africa_only_south : Bool) (lon lat : ℚ) : Bool :=
  if europe_only then
    decide (-10 ≤ lon) && decide (lon ≤ 45) && decide (35 ≤ lat) && decide (lat ≤ 72)
  else if africa_only_south then
    decide (-20 ≤ lon) && decide (lon ≤ 51)
  else true

/-- The loop of `cluster_by_longitude` over the items of the density map,
carrying the `western` and `eastern` dicts being built. -/
def clusterLoop (europe_only : Bool) (americas_south_limit : Option ℚ)
    (americas_only africa_only_south : Bool) :
    DensityMap → DensityMap × DensityMap → DensityMap × DensityMap
  | [], acc => acc
  | e :: rest, (western, eastern) =>
    if e.1.1 < -20 then
      if westKeep americas_south_limit e.1.2 then
        clusterLoop europe_only americas_south_limit americas_only africa_only_south
          rest (western ++ [e], eastern)
      else
        clusterLoop europe_only americas_south_limit americas_only africa_only_south
          rest (western, eastern)
    else
      if americas_only then
        clusterLoop europe_only americas_south_limit americas_only africa_only_south
          rest (western, eastern)
      else if eastKeep europe_only africa_only_south e.1.1 e.1.2 then
        clusterLoop europe_only americas_south_limit americas_only africa_only_south
          rest (western, eastern ++ [e])
      else
        clusterLoop europe_only americas_south_limit americas_only africa_only_south
          rest (western, eastern)

/-- Embedding of `cluster_by_longitude`.  The unused locals `lon_density`
and `sorted_lons` of the source have no effect on the result and are
omitted.  Empty clusters are not appended; western comes first. -/
def cluster_by_longitude (density_map : DensityMap) (europe_only : Bool)
    (americas_south_limit : Option ℚ) (americas_only africa_only_south : Bool) :
    List DensityMap :=
  if density_map = [] then []
  else
    let we := clusterLoop europe_only americas_south_limit americas_only africa_only_south
      density_map ([], [])
    (if we.1 = [] then [] else [we.1]) ++ (if we.2 = [] then [] else [we.2])

/-- The sort key of `find_extremes_in_cluster`: compare entries by the
latitude of the cell, `lambda x: x[0][1]`. -/
def latLE (a b : Entry) : Bool := decide (a.1.2 ≤ b.1.2)

/-- Embedding of `find_extremes_in_cluster`.  Python `sorted` is a stable
sort, embedded with the stable `List.mergeSort`.  The sorted list is empty
exactly when the input dict is empty, which is the `ValueError` case; on a
non-empty input the result is `(north_point, south_point)`, the keys of
the last and first entries of the sorted list. -/
def find_extremes_in_cluster (density_map : DensityMap) :
    Except String (MigPoint × MigPoint) :=
  match density_map.mergeSort latLE with
  | [] => .error "Empty density map"
  | e :: es => .ok (((e :: es).getLast (by simp)).1, e.1)

/-- Python `max(band_points, key=lambda x: x[1])` over a non-empty list:
the first element wins ties, a later element replaces the current best
only when its density is strictly greater. -/
def maxByDensity (e : Entry) (es : List Entry) : Entry :=
  es.foldl (fun best x => if best.2 < x.2 then x else best) e

/-- One iteration of the waypoint loop of `calculate_migration_path` at
band index `i`: append the densest cell of the latitude band, or
interpolate from the previous waypoint (or from the south anchor when the
path is still empty). -/
def pathStep (density_map : DensityMap) (south_point : MigPoint)
    (lat_south lat_step : ℚ) (path : List MigPoint) (i : ℕ) : List MigPoint :=
  let target_lat := lat_south + i * lat_step
  let band_min := target_lat - lat_step / 2
  let band_max := target_lat + lat_step / 2
  let band_points := density_map.filter
    (fun e => decide (band_min ≤ e.1.2) && decide (e.1.2 ≤ band_max))
  match band_points with
  | b :: bs => path ++ [(maxByDensity b bs).1]
  | [] =>
    match path.getLast? with
    | some prev => path ++ [(prev.1, target_lat)]
    | none => path ++ [(south_point.1, target_lat)]

/-- The block after the loop of `calculate_migration_path`: `path[0]` on
an empty path raises `IndexError` (`none`); otherwise the first entry is
overwritten with the south anchor when it differs, then the last entry
with the north anchor when it differs. -/
def forceEndpoints (south_point north_point : MigPoint) :
    List MigPoint → Option (List MigPoint)
  | [] => none
  | p :: ps =>
    let path1 := if p = south_point then p :: ps else (p :: ps).set 0 south_point
    let path2 := if path1.getLast? = some north_point then path1
      else path1.set (path1.length - 1) north_point
    some path2

/-- Embedding of `calculate_migration_path`.  `none` embeds an uncaught
Python exception: the `ZeroDivisionError` of `lat_range / (num_waypoints - 1)`
when `num_waypoints == 1`, and the `IndexError` of `path[0]` when the loop
ran zero times (`num_waypoints == 0`). -/
def calculate_migration_path (density_map : DensityMap)
    (north_point south_point : MigPoint) (num_waypoints : ℕ) :
    Option (List MigPoint) :=
  let lat_south := south_point.2
  let lat_north := north_point.2
  let lat_range := lat_north - lat_south
  if lat_range ≤ 0 then some [south_point, north_point]
  else if (num_waypoints : ℚ) - 1 = 0 then none
  else
    let lat_step := lat_range / ((num_waypoints : ℚ) - 1)
    let path := (List.range num_waypoints).foldl
      (pathStep density_map south_point lat_south lat_step) []
    forceEndpoints south_point north_point path

/-- Embedding of `smooth_path`: a moving average with the window clipped
at both ends, applied only when the path is strictly longer than the
window.  The slice `path[start:end]` is `drop start` then
`take (end - start)`. -/
def smooth_path (path : List MigPoint) (window_size : ℕ) : List MigPoint :=
  if path.length ≤ window_size then path
  else
    let half_window := window_size / 2
    (List.range path.length).map (fun i =>
      let start := i - half_window
      let stop := min path.length (i + half_window + 1)
      let window := (path.drop start).take (stop - start)
      ((window.map (fun p => p.1)).sum / window.length,
       (window.map (fun p => p.2)).sum / window.length))

/-- Python `round` rounds to the nearest integer with ties going to the
even neighbour. -/
def roundHalfEven (q : ℚ) : ℤ :=
  if q - ⌊q⌋ < 1/2 then ⌊q⌋
  else if 1/2 < q - ⌊q⌋ then ⌊q⌋ + 1
  else if 2 ∣ ⌊q⌋ then ⌊q⌋ else ⌊q⌋ + 1

/-- Python `round(x, 3)`. -/
def round3 (q : ℚ) : ℚ := (roundHalfEven (q * 1000) : ℚ) / 1000

/-- One output record of `build_migration_json`, one per flyway. -/
structure PathRecord where
  northPoint : ℚ × ℚ
  southPoint : ℚ × ℚ
  path : List (ℚ × ℚ)
deriving DecidableEq

/-- The JSON document `build_migration_json` writes. -/
structure MigrationOutput where
  speciesName : String
  color : String
  paths : List PathRecord
deriving DecidableEq

/-- Outcome of a `build_migration_json` run: an output file was written,
or the function returned early without writing one, or an uncaught
exception aborted the run without writing one. -/
inductive BuildResult
  | written (output : MigrationOutput)
  | skipped
  | error (msg : String)
deriving DecidableEq

/-- The per-cluster body of the loop of `build_migration_json`: find the
extremes, build the raw path with 25 waypoints, smooth with window 5,
round everything to 3 decimal places. -/
def processCluster (cluster : DensityMap) : Except String PathRecord :=
  match find_extremes_in_cluster cluster with
  | .error e => .error e
  | .ok (north_point, south_point) =>
    match calculate_migration_path cluster north_point south_point 25 with
    | none => .error "arithmetic error in calculate_migration_path"
    | some raw_path =>
      let smoothed_path := smooth_path raw_path 5
      .ok { northPoint := (round3 north_point.1, round3 north_point.2),
            southPoint := (round3 south_point.1, round3 south_point.2),
            path := smoothed_path.map (fun p => (round3 p.1, round3 p.2)) }

/-- Embedding of `build_migration_json` on an already loaded heatmap.
An empty aggregated density map hits the early `return` before anything
is written, embedded as `.skipped`.  Any exception escaping the cluster
loop is `.error`.  Otherwise the output document is written. -/
def build_migration_json (frames : List (List (ℚ × ℚ × ℚ)))
    (species_name : String)
    (exclude_regions : List ((ℚ × ℚ) × (ℚ × ℚ)))
    (europe_only : Bool) (americas_south_limit : Option ℚ)
    (americas_only africa_only_south : Bool) : BuildResult :=
  let density_map := aggregate_density_over_time frames
  if density_map = [] then .skipped
  else
    let density_map := if exclude_regions = [] then density_map
      else filter_geographic_regions density_map exclude_regions
    let normalized := normalize_densities density_map
    let clusters := cluster_by_longitude normalized europe_only americas_south_limit
      americas_only africa_only_south
    match clusters.mapM processCluster with
    | .error e => .error e
    | .ok paths => .written
        { speciesName := species_name, color := "#8b0000", paths := paths }

/-!  Theorems.  Rational arithmetic is sealed in Batteries; unsealing it
lets concrete instances evaluate. -/

unseal Rat.add Rat.mul Rat.inv Rat.sub Rat.ofScientific

/-- C8: `smooth_path` is the identity whenever the path length is at most
the window size. -/
theorem c8_smooth_path_identity (path : List MigPoint) (window_size : ℕ)
    (h : path.length ≤ window_size) : smooth_path path window_size = path := by
  simp [smooth_path, h]

theorem c8_smooth_path_identity_witness :
    smooth_path [((0:ℚ),(0:ℚ)), ((1:ℚ),(2:ℚ))] 3 = [((0:ℚ),(0:ℚ)), ((1:ℚ),(2:ℚ))] :=
  c8_smooth_path_identity [((0:ℚ),(0:ℚ)), ((1:ℚ),(2:ℚ))] 3 (by decide)

lemma foldl_max_le (l : List ℚ) (a : ℚ) : a ≤ l.foldl max a := by
  induction l generalizing a with
  | nil => simp
  | cons x xs ih => exact le_trans (le_max_left a x) (ih (max a x))

lemma mem_le_foldl_max (l : List ℚ) (a x : ℚ) (hx : x ∈ l) : x ≤ l.foldl max a := by
  induction l generalizing a with
  | nil => cases hx
  | cons y ys ih =>
    rcases List.mem_cons.mp hx with h | h
    · subst h; exact le_trans (le_max_right a x) (foldl_max_le ys (max a x))
    · exact ih (max a y) h

lemma foldl_max_mem (l : List ℚ) (a : ℚ) : l.foldl max a = a ∨ l.foldl max a ∈ l := by
  induction l generalizing a with
  | nil => left; rfl
  | cons y ys ih =>
    rw [List.foldl_cons]
    rcases ih (max a y) with h | h
    · rcases max_cases a y with ⟨h1, _⟩ | ⟨h1, _⟩
      · left; rw [h, h1]
      · right; rw [h, h1]; exact List.mem_cons_self y ys
    · right; exact List.mem_cons_of_mem y h

/-- C2 (amended): on a density map whose values are all nonnegative,
every normalized value lies in `[0, 1]`; when some value is non-zero,
any cell holding the maximum value maps to exactly `1`; the empty map
maps to the empty map; and when every value is zero the output values are
all zero, no division happening in that branch. -/
theorem c2_normalize_range (m : DensityMap) (hnn : ∀ e ∈ m, 0 ≤ e.2) :
    (∀ e ∈ normalize_densities m, 0 ≤ e.2 ∧ e.2 ≤ 1) ∧
    ((∃ e ∈ m, e.2 ≠ 0) →
      ∀ e ∈ m, (∀ x ∈ m, x.2 ≤ e.2) → (e.1, 1) ∈ normalize_densities m) ∧
    (m = [] → normalize_densities m = []) ∧
    ((∀ e ∈ m, e.2 = 0) → ∀ e ∈ normalize_densities m, e.2 = 0) := by
  cases m with
  | nil => simp [normalize_densities]
  | cons a as =>
    have hub : ∀ e ∈ a :: as, e.2 ≤ (as.map (fun x => x.2)).foldl max a.2 := by
      intro e he
      rcases List.mem_cons.mp he with h | h
      · subst h; exact foldl_max_le _ _
      · exact mem_le_foldl_max _ _ _ (List.mem_map_of_mem _ h)
    have hmem : ∃ e ∈ a :: as, e.2 = (as.map (fun x => x.2)).foldl max a.2 := by
      rcases foldl_max_mem (as.map (fun x => x.2)) a.2 with h | h
      · exact ⟨a, List.mem_cons_self a as, h.symm⟩
      · rcases List.mem_map.mp h with ⟨e, he, hev⟩
        exact ⟨e, List.mem_cons_of_mem a he, hev⟩
    by_cases hz : (as.map (fun x => x.2)).foldl max a.2 = 0
    · have hnorm : normalize_densities (a :: as) =
          (a :: as).map (fun p => (p.1, 0)) := by
        simp only [normalize_densities]
        rw [if_pos hz]
      refine ⟨?_, ?_, ?_, ?_⟩
      · intro e he
        rw [hnorm] at he
        rcases List.mem_map.mp he with ⟨x, _, hxe⟩
        rw [← hxe]; norm_num
      · intro hne
        rcases hne with ⟨e, he, hev⟩
        exact absurd (le_antisymm (hz ▸ hub e he) (hnn e he)) hev
      · intro h; cases h
      · intro _ e he
        rw [hnorm] at he
        rcases List.mem_map.mp he with ⟨x, _, hxe⟩
        rw [← hxe]
    · have hpos : 0 < (as.map (fun x => x.2)).foldl max a.2 := by
        rcases hmem with ⟨e, he, hev⟩
        exact lt_of_le_of_ne (hev ▸ hnn e he) (Ne.symm hz)
      have hnorm : normalize_densities (a :: as) =
          (a :: as).map (fun p => (p.1, p.2 / (as.map (fun x => x.2)).foldl max a.2)) := by
        simp only [normalize_densities]
        rw [if_neg hz]
      refine ⟨?_, ?_, ?_, ?_⟩
      · intro e he
        rw [hnorm] at he
        rcases List.mem_map.mp he with ⟨x, hx, hxe⟩
        rw [← hxe]
        constructor
        · exact div_nonneg (hnn x hx) (le_of_lt hpos)
        · exact (div_le_one hpos).mpr (hub x hx)
      · intro _ e he hemax
        have h1 : e.2 = (as.map (fun x => x.2)).foldl max a.2 := by
          rcases hmem with ⟨x, hx, hxv⟩
          exact le_antisymm (hub e he) (hxv ▸ hemax x hx)
        have h2 : (fun p : Entry => (p.1, p.2 / (as.map (fun x => x.2)).foldl max a.2)) e
            = (e.1, 1) := by
          simp only [h1]
          rw [div_self (ne_of_gt hpos)]
        rw [hnorm, ← h2]
        exact List.mem_map_of_mem _ he
      · intro h; cases h
      · intro hall
        exfalso
        rcases hmem with ⟨e, he, hev⟩
        exact hz (hev ▸ hall e he)

theorem c2_normalize_range_witness :
    ((((1:ℚ),(1:ℚ)), (1:ℚ)) ∈
      normalize_densities [(((0:ℚ),(0:ℚ)),1), (((1:ℚ),(1:ℚ)),2)]) :=
  (c2_normalize_range [(((0:ℚ),(0:ℚ)),1), (((1:ℚ),(1:ℚ)),2)] (by decide)).2.1
    ⟨(((1:ℚ),(1:ℚ)),2), by decide, by decide⟩
    (((1:ℚ),(1:ℚ)),2) (by decide) (by decide)

/-- C2 counterexample: on a density map with negative values the
normalized values are not all within `[0, 1]`: here the cell `(0, 0)`
gets value `2`. -/
theorem c2_counterexample :
    ¬ (∀ e ∈ normalize_densities [(((0:ℚ),(0:ℚ)),-2), (((1:ℚ),(1:ℚ)),-1)],
        0 ≤ e.2 ∧ e.2 ≤ 1) := by decide

/-- C5 (amended): with `num_waypoints = 1`, when the two anchors share a
latitude the call returns the two-point list `[south, north]`; but when
the north anchor is strictly above the south anchor the call raises
`ZeroDivisionError` computing `lat_range / (num_waypoints - 1)` instead
of returning a one-element list. -/
theorem c5_single_waypoint (m : DensityMap) (n s : MigPoint) :
    (n.2 = s.2 → calculate_migration_path m n s 1 = some [s, n]) ∧
    (s.2 < n.2 → calculate_migration_path m n s 1 = none) := by
  constructor
  · intro h
    simp only [calculate_migration_path]
    rw [if_pos (by rw [h, sub_self])]
  · intro h
    simp only [calculate_migration_path]
    rw [if_neg (by simp only [not_le, sub_pos]; exact h)]
    rw [if_pos (by norm_num)]

theorem c5_single_waypoint_witness :
    calculate_migration_path [] ((0:ℚ),(0:ℚ)) ((1:ℚ),(0:ℚ)) 1 =
      some [((1:ℚ),(0:ℚ)), ((0:ℚ),(0:ℚ))] ∧
    calculate_migration_path [] ((0:ℚ),(1:ℚ)) ((0:ℚ),(0:ℚ)) 1 = none :=
  ⟨(c5_single_waypoint [] ((0:ℚ),(0:ℚ)) ((1:ℚ),(0:ℚ))).1 rfl,
   (c5_single_waypoint [] ((0:ℚ),(1:ℚ)) ((0:ℚ),(0:ℚ))).2 (by decide)⟩

/-- C5 counterexample: with `num_waypoints = 1` over a non-empty cluster
whose anchors have distinct latitudes the call does not return normally:
it raises, embedded as `none`. -/
theorem c5_counterexample :
    calculate_migration_path [(((0:ℚ),(0:ℚ)),1)] ((0:ℚ),(1:ℚ)) ((0:ℚ),(0:ℚ)) 1
      = none := by decide

/-- C6 (amended): a heatmap whose aggregated density map has zero cells
makes `build_migration_json` return early without writing an output
file, printing a warning; the run does not surface a fatal error. -/
theorem c6_empty_map_skips (frames : List (List (ℚ × ℚ × ℚ))) (species : String)
    (er : List ((ℚ × ℚ) × (ℚ × ℚ))) (eo : Bool) (asl : Option ℚ) (ao afs : Bool)
    (h : aggregate_density_over_time frames = []) :
    build_migration_json frames species er eo asl ao afs = .skipped := by
  simp [build_migration_json, h]

theorem c6_empty_map_skips_witness :
    build_migration_json [[]] "Barn Swallow" [(((165:ℚ),(180:ℚ)), ((-55:ℚ),(-25:ℚ)))]
      true (some 0) true true = BuildResult.skipped :=
  c6_empty_map_skips [[]] "Barn Swallow" [(((165:ℚ),(180:ℚ)), ((-55:ℚ),(-25:ℚ)))]
    true (some 0) true true rfl

/-- C6 counterexample: an empty heatmap is not a terminal failure: the
run ends as a normal early return (`.skipped`), not as an uncaught error
surfacing to the invoker. -/
theorem c6_counterexample :
    build_migration_json [] "Canada Goose" [] false none false false
      = BuildResult.skipped := rfl

/-- The per-entry condition under which the loop of
`cluster_by_longitude` adds an entry to the western dict. -/
def srcWest (asl : Option ℚ) (e : Entry) : Bool :=
  decide (e.1.1 < -20) && westKeep asl e.1.2

/-- The per-entry condition under which the loop of
`cluster_by_longitude` adds an entry to the eastern dict. -/
def srcEast (eo ao afs : Bool) (e : Entry) : Bool :=
  !decide (e.1.1 < -20) && !ao && eastKeep eo afs e.1.1 e.1.2

lemma clusterLoop_eq (eo : Bool) (asl : Option ℚ) (ao afs : Bool) :
    ∀ (l : DensityMap) (w e : DensityMap),
      clusterLoop eo asl ao afs l (w, e) =
        (w ++ l.filter (srcWest asl), e ++ l.filter (srcEast eo ao afs)) := by
  intro l
  induction l with
  | nil => intro w e; simp [clusterLoop]
  | cons x xs ih =>
    intro w e
    simp only [clusterLoop]
    by_cases h1 : x.1.1 < -20
    · rw [if_pos h1]
      have he : srcEast eo ao afs x = false := by
        simp [srcEast, h1]
      by_cases h2 : westKeep asl x.1.2
      · rw [if_pos h2, ih]
        have hw : srcWest asl x = true := by simp [srcWest, h1, h2]
        simp [List.filter_cons, hw, he]
      · rw [if_neg h2, ih]
        have hw : srcWest asl x = false := by
          simp only [srcWest, Bool.and_eq_false_iff]
          right
          exact Bool.eq_false_iff.mpr h2
        simp [List.filter_cons, hw, he]
    · rw [if_neg h1]
      have hw : srcWest asl x = false := by simp [srcWest, h1]
      by_cases h3 : ao
      · rw [if_pos h3, ih]
        have he : srcEast eo ao afs x = false := by simp [srcEast, h3]
        simp [List.filter_cons, hw, he]
      · rw [if_neg h3]
        by_cases h4 : eastKeep eo afs x.1.1 x.1.2
        · rw [if_pos h4, ih]
          have he : srcEast eo ao afs x = true := by
            simp [srcEast, h1, h4, Bool.eq_false_iff.mpr h3]
          simp [List.filter_cons, hw, he]
        · rw [if_neg h4, ih]
          have he : srcEast eo ao afs x = false := by
            simp [srcEast, Bool.eq_false_iff.mpr h4]
          simp [List.filter_cons, hw, he]

lemma cluster_by_longitude_eq (m : DensityMap) (eo : Bool) (asl : Option ℚ)
    (ao afs : Bool) :
    cluster_by_longitude m eo asl ao afs =
      (if m.filter (srcWest asl) = [] then [] else [m.filter (srcWest asl)]) ++
      (if m.filter (srcEast eo ao afs) = [] then []
       else [m.filter (srcEast eo ao afs)]) := by
  by_cases hm : m = []
  · subst hm; simp [cluster_by_longitude]
  · simp only [cluster_by_longitude]
    rw [if_neg hm, clusterLoop_eq]
    simp

/-- The western cluster as the claim words it: cells with `lon < -20`,
narrowed to `lat ≥ americas_south_limit` when that limit is set. -/
def specWesternKeep (asl : Option ℚ) (e : Entry) : Bool :=
  decide (e.1.1 < -20) && (asl.isNone || asl.any (fun lim => decide (lim ≤ e.1.2)))

/-- The eastern cluster as the claim words it: cells with `lon ≥ -20`,
kept only when `americas_only` is unset, narrowed to continental Europe
under `europe_only`, else to the African longitude band under
`africa_only_south`. -/
def specEasternKeep (eo ao afs : Bool) (e : Entry) : Bool :=
  decide (-20 ≤ e.1.1) && !ao &&
  (if eo then
    decide (-10 ≤ e.1.1) && decide (e.1.1 ≤ 45) &&
    decide (35 ≤ e.1.2) && decide (e.1.2 ≤ 72)
   else if afs then decide (-20 ≤ e.1.1) && decide (e.1.1 ≤ 51)
   else true)

/-- C3: `cluster_by_longitude` returns exactly the non-empty ones among
the western and the eastern cluster, western first, where the clusters
are the input restricted to the membership conditions of the claim; and
the two-cell scenario splits into the two singleton clusters in western,
eastern order. -/
theorem c3_cluster_by_longitude :
    (∀ (m : DensityMap) (eo : Bool) (asl : Option ℚ) (ao afs : Bool),
      cluster_by_longitude m eo asl ao afs =
        (if m.filter (specWesternKeep asl) = [] then []
         else [m.filter (specWesternKeep asl)]) ++
        (if m.filter (specEasternKeep eo ao afs) = [] then []
         else [m.filter (specEasternKeep eo ao afs)])) ∧
    cluster_by_longitude [(((-30:ℚ),(10:ℚ)),1), (((30:ℚ),(10:ℚ)),1)]
        false none false false =
      [[(((-30:ℚ),(10:ℚ)),1)], [(((30:ℚ),(10:ℚ)),1)]] := by
  constructor
  · intro m eo asl ao afs
    have hw : m.filter (srcWest asl) = m.filter (specWesternKeep asl) := by
      apply List.filter_congr
      intro x _
      cases asl <;> simp [srcWest, specWesternKeep, westKeep]
    have he : m.filter (srcEast eo ao afs) = m.filter (specEasternKeep eo ao afs) := by
      apply List.filter_congr
      intro x _
      cases eo <;> cases afs <;>
        simp [srcEast, specEasternKeep, eastKeep, ← decide_not, not_lt]
    rw [cluster_by_longitude_eq, hw, he]
  · decide

/-- C10: every returned cluster is a restriction of the input map (each
entry of a cluster is an entry of the input with the same value), each
cluster is homogeneous in hemisphere (all cells with `lon < -20`, or all
with `lon ≥ -20`), and no cell key occurs in two distinct returned
clusters. -/
theorem c10_clusters_disjoint_restriction (m : DensityMap) (eo : Bool)
    (asl : Option ℚ) (ao afs : Bool) :
    (∀ c ∈ cluster_by_longitude m eo asl ao afs, ∀ e ∈ c, e ∈ m) ∧
    (∀ c ∈ cluster_by_longitude m eo asl ao afs,
      (∀ e ∈ c, e.1.1 < -20) ∨ (∀ e ∈ c, -20 ≤ e.1.1)) ∧
    (cluster_by_longitude m eo asl ao afs).Pairwise
      (fun c₁ c₂ => ∀ e₁ ∈ c₁, ∀ e₂ ∈ c₂, e₁.1 ≠ e₂.1) := by
  have hwest : ∀ e ∈ m.filter (srcWest asl), e.1.1 < -20 := by
    intro e he
    have := List.of_mem_filter he
    simp only [srcWest, Bool.and_eq_true, decide_eq_true_eq] at this
    exact this.1
  have heast : ∀ e ∈ m.filter (srcEast eo ao afs), -20 ≤ e.1.1 := by
    intro e he
    have := List.of_mem_filter he
    simp only [srcEast, Bool.and_eq_true, Bool.not_eq_eq_eq_not, Bool.not_true,
      decide_eq_false_iff_not, not_lt] at this
    exact this.1.1
  have hsub : ∀ c ∈ cluster_by_longitude m eo asl ao afs, ∀ e ∈ c, e ∈ m := by
    intro c hc e he
    rw [cluster_by_longitude_eq] at hc
    rcases List.mem_append.mp hc with h | h <;> split at h <;> simp at h <;>
      exact List.mem_of_mem_filter (h ▸ he)
  refine ⟨hsub, ?_, ?_⟩
  · intro c hc
    rw [cluster_by_longitude_eq] at hc
    rcases List.mem_append.mp hc with h | h <;> split at h <;> simp at h
    · left; exact fun e he => hwest e (h ▸ he)
    · right; exact fun e he => heast e (h ▸ he)
  · rw [cluster_by_longitude_eq]
    have hkey : ∀ e₁ ∈ m.filter (srcWest asl), ∀ e₂ ∈ m.filter (srcEast eo ao afs),
        e₁.1 ≠ e₂.1 := by
      intro e₁ h₁ e₂ h₂ hk
      have := hwest e₁ h₁
      rw [hk] at this
      exact absurd (heast e₂ h₂) (not_le.mpr this)
    split <;> split <;>
      simp only [List.nil_append, List.append_nil, List.singleton_append]
    · exact List.Pairwise.nil
    · exact List.pairwise_singleton _ _
    · exact List.pairwise_singleton _ _
    · exact List.pairwise_pair.mpr hkey

theorem c10_clusters_witness :
    ((((-30:ℚ),(10:ℚ)),(1:ℚ)) ∈
      ([(((-30:ℚ),(10:ℚ)),(1:ℚ)), (((30:ℚ),(10:ℚ)),(1:ℚ))] : DensityMap)) :=
  (c10_clusters_disjoint_restriction
      [(((-30:ℚ),(10:ℚ)),1), (((30:ℚ),(10:ℚ)),1)] false none false false).1
    [(((-30:ℚ),(10:ℚ)),1)] (by decide) (((-30:ℚ),(10:ℚ)),1) (by decide)

lemma pathStep_length (dm : DensityMap) (s : MigPoint) (ls step : ℚ)
    (path : List MigPoint) (i : ℕ) :
    (pathStep dm s ls step path i).length = path.length + 1 := by
  simp only [pathStep]
  split
  · simp
  · split <;> simp

lemma foldl_pathStep_length (dm : DensityMap) (s : MigPoint) (ls step : ℚ) :
    ∀ (idxs : List ℕ) (path : List MigPoint),
      (idxs.foldl (pathStep dm s ls step) path).length = path.length + idxs.length := by
  intro idxs
  induction idxs with
  | nil => simp
  | cons i idxs ih =>
    intro path
    rw [List.foldl_cons, ih, pathStep_length]
    simp only [List.length_cons]
    omega

lemma getLast?_set_last {α : Type} :
    ∀ (l : List α) (x : α), l ≠ [] → (l.set (l.length - 1) x).getLast? = some x := by
  intro l
  induction l with
  | nil => intro x h; cases h rfl
  | cons a as ih =>
    intro x _
    cases as with
    | nil => simp
    | cons b bs =>
      have h : (a :: b :: bs).length - 1 = (b :: bs).length - 1 + 1 := by simp
      rw [h, List.set_cons_succ]
      match hk : (b :: bs).set ((b :: bs).length - 1) x with
      | [] =>
        have := congrArg List.length hk
        simp at this
      | c :: cs =>
        rw [List.getLast?_cons_cons, ← hk]
        exact ih x (by simp)

/-- C1: whenever `calculate_migration_path` returns a list, its first
element is exactly the south anchor and its last element is exactly the
north anchor, whatever the per-band density search produced; and when
the two anchors share a latitude the result is exactly `[south, north]`. -/
theorem c1_forced_endpoints (m : DensityMap) (n s : MigPoint) (N : ℕ)
    (p : List MigPoint) (h : calculate_migration_path m n s N = some p) :
    p.head? = some s ∧ p.getLast? = some n ∧ (n.2 = s.2 → p = [s, n]) := by
  simp only [calculate_migration_path] at h
  by_cases h0 : n.2 - s.2 ≤ 0
  · rw [if_pos h0] at h
    cases h
    refine ⟨rfl, rfl, fun _ => rfl⟩
  · rw [if_neg h0] at h
    have hlat : ¬ n.2 = s.2 := fun hc => h0 (by rw [hc, sub_self])
    by_cases h1 : (N : ℚ) - 1 = 0
    · rw [if_pos h1] at h; cases h
    · rw [if_neg h1] at h
      have hN1 : N ≠ 1 := by
        intro hc; subst hc; simp at h1
      have hlen : ((List.range N).foldl
          (pathStep m s s.2 ((n.2 - s.2) / ((N : ℚ) - 1))) []).length = N := by
        rw [foldl_pathStep_length]; simp
      rcases hm : (List.range N).foldl
          (pathStep m s s.2 ((n.2 - s.2) / ((N : ℚ) - 1))) [] with _ | ⟨p₀, ps⟩
      · rw [hm] at h
        simp [forceEndpoints] at h
      · rw [hm] at h
        rw [hm] at hlen
        simp only [forceEndpoints] at h
        have hps : ps ≠ [] := by
          simp only [List.length_cons] at hlen
          intro hc
          rw [hc] at hlen
          simp at hlen
          exact hN1 hlen.symm
        have hpath1 : (if p₀ = s then p₀ :: ps else (p₀ :: ps).set 0 s) = s :: ps := by
          split
          · rename_i hps0; rw [hps0]
          · simp
        rw [hpath1] at h
        split at h
        · rename_i hlast
          cases h
          exact ⟨rfl, hlast, fun hc => absurd hc hlat⟩
        · cases h
          constructor
          · match hps2 : ps, hps with
            | q :: qs, _ =>
              have hidx : (s :: q :: qs).length - 1 = (q :: qs).length - 1 + 1 := by simp
              rw [hidx, List.set_cons_succ]
              rfl
          · refine ⟨getLast?_set_last (s :: ps) n (by simp), fun hc => absurd hc hlat⟩

theorem c1_forced_endpoints_witness :
    ([((0:ℚ),(0:ℚ)), ((0:ℚ),(1:ℚ))] : List MigPoint).head? = some ((0:ℚ),(0:ℚ)) ∧
    ([((0:ℚ),(0:ℚ)), ((0:ℚ),(1:ℚ))] : List MigPoint).getLast? = some ((0:ℚ),(1:ℚ)) ∧
    (((0:ℚ),(1:ℚ)).2 = ((0:ℚ),(0:ℚ)).2 →
      ([((0:ℚ),(0:ℚ)), ((0:ℚ),(1:ℚ))] : List MigPoint)
        = [((0:ℚ),(0:ℚ)), ((0:ℚ),(1:ℚ))]) :=
  c1_forced_endpoints [] ((0:ℚ),(1:ℚ)) ((0:ℚ),(0:ℚ)) 2
    [((0:ℚ),(0:ℚ)), ((0:ℚ),(1:ℚ))] (by decide)

lemma latLE_trans : ∀ (a b c : Entry), latLE a b → latLE b c → latLE a c := by
  intro a b c h1 h2
  simp only [latLE, decide_eq_true_eq] at h1 h2 ⊢
  exact le_trans h1 h2

lemma latLE_total : ∀ (a b : Entry), latLE a b || latLE b a := by
  intro a b
  simp only [latLE, Bool.or_eq_true, decide_eq_true_eq]
  exact le_total a.1.2 b.1.2

lemma pairwise_head_lat {e : Entry} {es : List Entry}
    (hp : (e :: es).Pairwise (fun a b => latLE a b = true)) :
    ∀ x ∈ e :: es, e.1.2 ≤ x.1.2 := by
  intro x hx
  rcases List.mem_cons.mp hx with h | h
  · subst h; exact le_refl _
  · have := (List.pairwise_cons.mp hp).1 x h
    simpa [latLE] using this

lemma pairwise_getLast_lat :
    ∀ (l : List Entry) (hne : l ≠ []),
      l.Pairwise (fun a b => latLE a b = true) →
      ∀ x ∈ l, x.1.2 ≤ (l.getLast hne).1.2 := by
  intro l
  induction l with
  | nil => intro hne; cases hne rfl
  | cons a as ih =>
    intro _ hp x hx
    cases as with
    | nil =>
      rcases List.mem_cons.mp hx with h | h
      · subst h; exact le_refl _
      · cases h
    | cons b bs =>
      rw [List.getLast_cons (by simp)]
      rcases List.mem_cons.mp hx with h | h
      · subst h
        have hxb : x.1.2 ≤ b.1.2 := by
          have := (List.pairwise_cons.mp hp).1 b (List.mem_cons_self b bs)
          simpa [latLE] using this
        exact le_trans hxb
          (ih (by simp) (List.pairwise_cons.mp hp).2 b (List.mem_cons_self b bs))
      · exact ih (by simp) (List.pairwise_cons.mp hp).2 x h

/-- C4: `find_extremes_in_cluster` raises on an empty cluster, returns on
a non-empty one, and whenever it returns `(north, south)` these are cell
keys of the cluster whose latitudes bound every latitude of the cluster
from above and from below respectively. -/
theorem c4_find_extremes (m : DensityMap) :
    (m = [] → find_extremes_in_cluster m = .error "Empty density map") ∧
    (m ≠ [] → (find_extremes_in_cluster m).isOk = true) ∧
    (∀ n s : MigPoint, find_extremes_in_cluster m = .ok (n, s) →
      n ∈ m.map Prod.fst ∧ s ∈ m.map Prod.fst ∧
      (∀ e ∈ m, e.1.2 ≤ n.2) ∧ (∀ e ∈ m, s.2 ≤ e.1.2)) := by
  refine ⟨?_, ?_, ?_⟩
  · intro hm; subst hm
    simp [find_extremes_in_cluster, List.mergeSort_nil]
  · intro hm
    cases hs : m.mergeSort latLE with
    | nil =>
      have := List.mergeSort_perm m latLE
      rw [hs] at this
      exact absurd this.symm.eq_nil hm
    | cons e es => simp [find_extremes_in_cluster, hs, Except.isOk, Except.toBool]
  · intro n s hok
    cases hs : m.mergeSort latLE with
    | nil => simp [find_extremes_in_cluster, hs] at hok
    | cons e es =>
      simp only [find_extremes_in_cluster, hs, Except.ok.injEq, Prod.mk.injEq] at hok
      have hperm : List.Perm (e :: es) m := hs ▸ List.mergeSort_perm m latLE
      have hpair := List.sorted_mergeSort latLE_trans latLE_total m
      rw [hs] at hpair
      have hg : ((e :: es).getLast (by simp)) ∈ m :=
        hperm.subset (List.getLast_mem (by simp))
      have he : e ∈ m := hperm.subset (List.mem_cons_self e es)
      refine ⟨?_, ?_, ?_, ?_⟩
      · rw [← hok.1]; exact List.mem_map_of_mem Prod.fst hg
      · rw [← hok.2]; exact List.mem_map_of_mem Prod.fst he
      · intro x hx
        rw [← hok.1]
        exact pairwise_getLast_lat (e :: es) (by simp) hpair x (hperm.mem_iff.mpr hx)
      · intro x hx
        rw [← hok.2]
        exact pairwise_head_lat hpair x (hperm.mem_iff.mpr hx)

theorem c4_find_extremes_witness :
    find_extremes_in_cluster [] = .error "Empty density map" ∧
    (find_extremes_in_cluster
      [(((2:ℚ),(-3:ℚ)),(1:ℚ)), (((0:ℚ),(5:ℚ)),(1:ℚ))]).isOk = true ∧
    (((0:ℚ),(5:ℚ)) ∈
      ([(((2:ℚ),(-3:ℚ)),(1:ℚ)), (((0:ℚ),(5:ℚ)),(1:ℚ))] : DensityMap).map Prod.fst) :=
  ⟨(c4_find_extremes []).1 rfl,
   (c4_find_extremes [(((2:ℚ),(-3:ℚ)),(1:ℚ)), (((0:ℚ),(5:ℚ)),(1:ℚ))]).2.1
     (by decide),
   ((c4_find_extremes [(((2:ℚ),(-3:ℚ)),(1:ℚ)), (((0:ℚ),(5:ℚ)),(1:ℚ))]).2.2
     ((0:ℚ),(5:ℚ)) ((2:ℚ),(-3:ℚ))
     (by rw [find_extremes_in_cluster, List.mergeSort_of_sorted (by decide)]; rfl)).1⟩

lemma find?_first {α : Type} (p : α → Bool) :
    ∀ (l : List α) (f : α), l.find? p = some f →
      ∀ x ∈ l, p x → x = f ∨ List.Sublist [f, x] l := by
  intro l
  induction l with
  | nil => intro f h; simp at h
  | cons a as ih =>
    intro f hf x hx hpx
    by_cases hpa : p a
    · rw [List.find?_cons_of_pos as hpa, Option.some.injEq] at hf
      subst hf
      rcases List.mem_cons.mp hx with h | h
      · left; exact h
      · right; exact (List.singleton_sublist.mpr h).cons₂ a
    · rw [List.find?_cons_of_neg as hpa] at hf
      rcases List.mem_cons.mp hx with h | h
      · subst h; exact absurd hpx hpa
      · rcases ih f hf x h hpx with h2 | h2
        · left; exact h2
        · right; exact h2.cons a

lemma pair_sublist_head {α : Type} {f x : α} {t : List α}
    (h : List.Sublist [f, x] (x :: t)) (hnd : (x :: t).Nodup) : f = x := by
  cases h with
  | cons a h2 =>
    exact absurd (h2.subset (by simp)) (List.nodup_cons.mp hnd).1
  | cons₂ h2 => rfl

/-- The head of the stable sort by latitude is the first entry of the
dict that attains the minimum latitude. -/
lemma mergeSort_head_find? (m : DensityMap) (hnd : m.Nodup) (e : Entry)
    (es : List Entry) (hs : m.mergeSort latLE = e :: es) :
    m.find? (fun x => m.all (fun y => latLE x y)) = some e := by
  have hperm : List.Perm (e :: es) m := hs ▸ List.mergeSort_perm m latLE
  have hpair := List.sorted_mergeSort latLE_trans latLE_total m
  rw [hs] at hpair
  have hemem : e ∈ m := hperm.subset (List.mem_cons_self e es)
  have hmin : ∀ y ∈ m, latLE e y = true := by
    intro y hy
    simp only [latLE, decide_eq_true_eq]
    exact pairwise_head_lat hpair y (hperm.mem_iff.mpr hy)
  have hpe : (fun x => m.all (fun y => latLE x y)) e = true := by
    simp only [List.all_eq_true]
    exact hmin
  have hex : (m.find? (fun x => m.all (fun y => latLE x y))).isSome :=
    List.find?_isSome.mpr ⟨e, hemem, hpe⟩
  obtain ⟨f, hf⟩ := Option.isSome_iff_exists.mp hex
  have hfm : f ∈ m := List.mem_of_find?_eq_some hf
  have hpf := List.find?_some hf
  rcases find?_first _ m f hf e hemem hpe with heq | hsub
  · rw [hf, heq]
  · have hle : latLE f e = true := List.all_eq_true.mp hpf e hemem
    have hpair2 := List.pair_sublist_mergeSort latLE_trans latLE_total hle hsub
    rw [hs] at hpair2
    have hnds : (e :: es).Nodup := hnd.perm hperm.symm
    rw [hf, pair_sublist_head hpair2 hnds]

/-- The last entry of the stable sort by latitude is the last entry of
the dict that attains the maximum latitude. -/
lemma mergeSort_getLast_find? (m : DensityMap) (hnd : m.Nodup) (e : Entry)
    (es : List Entry) (hs : m.mergeSort latLE = e :: es) :
    m.reverse.find? (fun x => m.all (fun y => latLE y x)) =
      some ((e :: es).getLast (by simp)) := by
  have hperm : List.Perm (e :: es) m := hs ▸ List.mergeSort_perm m latLE
  have hpair := List.sorted_mergeSort latLE_trans latLE_total m
  rw [hs] at hpair
  have hgmem : ((e :: es).getLast (by simp)) ∈ m :=
    hperm.subset (List.getLast_mem (by simp))
  have hgrev : ((e :: es).getLast (by simp)) ∈ m.reverse :=
    List.mem_reverse.mpr hgmem
  have hmax : ∀ y ∈ m, latLE y ((e :: es).getLast (by simp)) = true := by
    intro y hy
    simp only [latLE, decide_eq_true_eq]
    exact pairwise_getLast_lat (e :: es) (by simp) hpair y (hperm.mem_iff.mpr hy)
  have hpg : (fun x => m.all (fun y => latLE y x)) ((e :: es).getLast (by simp))
      = true := by
    simp only [List.all_eq_true]
    exact hmax
  have hex : (m.reverse.find? (fun x => m.all (fun y => latLE y x))).isSome :=
    List.find?_isSome.mpr ⟨(e :: es).getLast (by simp), hgrev, hpg⟩
  obtain ⟨f, hf⟩ := Option.isSome_iff_exists.mp hex
  have hfm : f ∈ m := List.mem_reverse.mp (List.mem_of_find?_eq_some hf)
  have hpf := List.find?_some hf
  rcases find?_first _ m.reverse f hf ((e :: es).getLast (by simp)) hgrev hpg
    with heq | hsub
  · rw [hf, heq]
  · have hsub2 : List.Sublist [(e :: es).getLast (by simp), f] m := by
      have := List.sublist_reverse_iff.mp hsub
      simpa using this
    have hle : latLE ((e :: es).getLast (by simp)) f = true :=
      List.all_eq_true.mp hpf _ hgmem
    have hpair2 := List.pair_sublist_mergeSort latLE_trans latLE_total hle hsub2
    rw [hs] at hpair2
    have hrev : List.Sublist [f, (e :: es).getLast (by simp)] ((e :: es).reverse) := by
      rw [← List.reverse_sublist] at hpair2
      simpa using hpair2
    have hnds : (e :: es).Nodup := hnd.perm hperm.symm
    have hndr : ((e :: es).reverse).Nodup := by
      rw [List.nodup_reverse]
      exact hnds
    have hhead : ((e :: es).reverse).head? = some ((e :: es).getLast (by simp)) := by
      rw [List.head?_reverse]
      exact List.getLast?_eq_getLast (e :: es) (by simp)
    cases hr : (e :: es).reverse with
    | nil =>
      have := congrArg List.length hr
      simp at this
    | cons g gs =>
      rw [hr] at hhead
      simp only [List.head?_cons, Option.some.injEq] at hhead
      subst hhead
      rw [hr] at hrev hndr
      rw [hf, pair_sublist_head hrev hndr]

/-- C7 (amended): on ties `find_extremes_in_cluster` is asymmetric: the
south point is the first entry of the dict attaining the minimum
latitude, but the north point is the last entry of the dict attaining
the maximum latitude, not the first.  The dict hypothesis is that cell
keys are distinct, which every Python dict guarantees. -/
theorem c7_tie_break (m : DensityMap) (n s : MigPoint)
    (hnd : (m.map Prod.fst).Nodup)
    (hok : find_extremes_in_cluster m = .ok (n, s)) :
    (m.find? (fun x => m.all (fun y => latLE x y))).map Prod.fst = some s ∧
    (m.reverse.find? (fun x => m.all (fun y => latLE y x))).map Prod.fst
      = some n := by
  have hnd2 : m.Nodup := List.Nodup.of_map Prod.fst hnd
  cases hs : m.mergeSort latLE with
  | nil => simp [find_extremes_in_cluster, hs] at hok
  | cons e es =>
    simp only [find_extremes_in_cluster, hs, Except.ok.injEq, Prod.mk.injEq] at hok
    rw [mergeSort_head_find? m hnd2 e es hs, mergeSort_getLast_find? m hnd2 e es hs]
    simp [hok.1, hok.2]

/-- C7 counterexample: with two cells tied at the maximum latitude the
north point is the second (last-encountered) one, `(1, 5)`, not the
first-encountered `(0, 5)` the claim requires. -/
theorem c7_counterexample :
    find_extremes_in_cluster [(((0:ℚ),(5:ℚ)),1), (((1:ℚ),(5:ℚ)),2)] =
      .ok (((1:ℚ),(5:ℚ)), ((0:ℚ),(5:ℚ))) ∧
    ¬ ((1:ℚ),(5:ℚ)) = ((0:ℚ),(5:ℚ)) := by
  constructor
  · rw [find_extremes_in_cluster, List.mergeSort_of_sorted (by decide)]
    rfl
  · decide

theorem c7_tie_break_witness :
    (([(((2:ℚ),(-3:ℚ)),(1:ℚ)), (((0:ℚ),(5:ℚ)),(1:ℚ)), (((1:ℚ),(5:ℚ)),(2:ℚ))] :
        DensityMap).find?
      (fun x => ([(((2:ℚ),(-3:ℚ)),(1:ℚ)), (((0:ℚ),(5:ℚ)),(1:ℚ)),
        (((1:ℚ),(5:ℚ)),(2:ℚ))] : DensityMap).all
        (fun y => latLE x y))).map Prod.fst = some ((2:ℚ),(-3:ℚ)) ∧
    (([(((2:ℚ),(-3:ℚ)),(1:ℚ)), (((0:ℚ),(5:ℚ)),(1:ℚ)), (((1:ℚ),(5:ℚ)),(2:ℚ))] :
        DensityMap).reverse.find?
      (fun x => ([(((2:ℚ),(-3:ℚ)),(1:ℚ)), (((0:ℚ),(5:ℚ)),(1:ℚ)),
        (((1:ℚ),(5:ℚ)),(2:ℚ))] : DensityMap).all
        (fun y => latLE y x))).map Prod.fst = some ((1:ℚ),(5:ℚ)) :=
  c7_tie_break
    [(((2:ℚ),(-3:ℚ)),(1:ℚ)), (((0:ℚ),(5:ℚ)),(1:ℚ)), (((1:ℚ),(5:ℚ)),(2:ℚ))]
    ((1:ℚ),(5:ℚ)) ((2:ℚ),(-3:ℚ)) (by decide)
    (by rw [find_extremes_in_cluster, List.mergeSort_of_sorted (by decide)]; rfl)

/-- A six-point path whose head moves under a moving average. -/
def path6 : List MigPoint := [(0,0),(3,3),(0,0),(0,0),(0,0),(0,0)]

/-- A one-frame heatmap with three cells on one western flyway. -/
def frames9 : List (List (ℚ × ℚ × ℚ)) := [[(-30,0,1), (-40,10,5), (-30,20,1)]]

/-- The single cluster `build_migration_json` forms from `frames9`. -/
def cl9 : DensityMap :=
  [(((-30:ℚ),(0:ℚ)),1/5), (((-40:ℚ),(10:ℚ)),1), (((-30:ℚ),(20:ℚ)),1/5)]

/-- The output record `build_migration_json` writes for `frames9`. -/
def rec9 : PathRecord :=
  { northPoint := (-30, 20), southPoint := (-30, 0),
    path := [(-30, 833/1000), (-30, 5/4), (-30, 1667/1000), (-30, 5/2),
      (-30, 3333/1000), (-30, 4167/1000), (-30, 5), (-30, 5833/1000),
      (-30, 6667/1000), (-30, 15/2), (-32, 8333/1000), (-34, 9167/1000),
      (-36, 10), (-38, 10833/1000), (-40, 11667/1000), (-40, 25/2),
      (-40, 13333/1000), (-40, 14167/1000), (-40, 15), (-40, 15833/1000),
      (-40, 16667/1000), (-40, 35/2), (-38, 18333/1000), (-75/2, 75/4),
      (-36667/1000, 19167/1000)] }

/-- The path records of a written run, none when nothing was written. -/
def writtenPaths : BuildResult → List PathRecord
  | .written o => o.paths
  | .skipped => []
  | .error _ => []

/-- C9: smoothing does not preserve the forced anchors: on `path6` the
smoothed head differs from the input head, and in the orchestrated run on
`frames9` the written record has a first path entry different from its
`southPoint` field and a last path entry different from its `northPoint`
field, because smoothing runs after the anchors are forced. -/
theorem c9_smoothing_moves_anchors :
    3 < path6.length ∧ (smooth_path path6 3).head? ≠ path6.head? ∧
    (∃ r ∈ writtenPaths
        (build_migration_json frames9 "Canada Goose" [] false none false false),
      r.path.head? ≠ some r.southPoint ∧ r.path.getLast? ≠ some r.northPoint) := by
  refine ⟨by decide, by decide, ?_⟩
  have hfe : find_extremes_in_cluster cl9
      = .ok (((-30:ℚ),(20:ℚ)), ((-30:ℚ),(0:ℚ))) := by
    rw [find_extremes_in_cluster, List.mergeSort_of_sorted (by decide)]
    rfl
  have hpc : processCluster cl9 = .ok rec9 := by
    simp only [processCluster, hfe]
    rfl
  have hcl : cluster_by_longitude
      (normalize_densities (aggregate_density_over_time frames9))
      false none false false = [cl9] := by decide
  have hb : build_migration_json frames9 "Canada Goose" [] false none false false
      = .written { speciesName := "Canada Goose", color := "#8b0000",
                   paths := [rec9] } := by
    simp only [build_migration_json]
    rw [if_neg (by decide)]
    simp only [if_true]
    rw [hcl]
    simp only [List.mapM_cons, List.mapM_nil, hpc]
    rfl
  rw [hb]
  exact ⟨rec9, by decide, by decide, by decide⟩

theorem c9_smoothing_moves_anchors_witness : 3 < path6.length :=
  c9_smoothing_moves_anchors.1

theorem c3_cluster_by_longitude_witness :
    cluster_by_longitude [(((-30:ℚ),(10:ℚ)),1), (((30:ℚ),(10:ℚ)),1)]
        false none false false =
      [[(((-30:ℚ),(10:ℚ)),1)], [(((30:ℚ),(10:ℚ)),1)]] :=
  c3_cluster_by_longitude.2

end BirdPaths
